import Mathlib

/-!
Verification of the SICS codec (Compression_Decompression.py).

The embedding models Python values as follows: a text (Python str) is a
List Char of Unicode scalar values; a Python dict is an insertion-ordered
association list with distinct keys, looked up by first match (getAssoc);
dict insertion that may overwrite an existing key is insertAssoc.
CompressText returns an Option, none standing for the KeyError raised by
mapping[ch] on a missing character.  The decode while-loop is embedded as
a fuel-indexed recursion (decodeLoop) started with fuel equal to the
stream length; the cursor advances by at least one symbol per iteration
(splitCode_snd_lt), so that fuel always suffices
(decodeLoop_fuel_irrel).  The infinite generator GenerateCodes is embedded
as the function giving its n-th yielded value: the first 15 yields are the
single hex digits of 0..14, and thereafter the loop yielding 15 codes per
F-run block means yield n carries n / 15 leading F symbols and terminal
digit n % 15.
-/

namespace SICS

/-- Uppercase hexadecimal digit for a value below 15, as Python
format(n, 'X') renders it: 0-9 then A-E. -/
def hexChar (n : Nat) : Char :=
  if n < 10 then Char.ofNat (48 + n) else Char.ofNat (55 + n)

/-- Python dict lookup on an insertion-ordered association list:
first matching key wins. -/
def getAssoc {κ ν : Type} [DecidableEq κ] : List (κ × ν) → κ → Option ν
  | [], _ => none
  | (k, v) :: rest, key => if k = key then some v else getAssoc rest key

/-- One step of CountFrequencies: increment the count of ch if present,
otherwise append (ch, 1) at the end, as Python dict insertion does. -/
def bumpCount : List (Char × Nat) → Char → List (Char × Nat)
  | [], ch => [(ch, 1)]
  | (c, n) :: rest, ch =>
    if c = ch then (c, n + 1) :: rest else (c, n) :: bumpCount rest ch

/-- CountFrequencies from the source: tally of each character of the text,
keyed in first-occurrence order. -/
def CountFrequencies (text : List Char) : List (Char × Nat) :=
  text.foldl bumpCount []

/-- The sort key of SortCharacters, as a boolean total preorder:
(-count, char) compared lexicographically, the character by code point. -/
def SortKeyLe (p q : Char × Nat) : Bool :=
  decide (q.2 < p.2) || (decide (p.2 = q.2) && decide (p.1 ≤ q.1))

/-- SortCharacters from the source: keys of the frequency table sorted by
descending count, then ascending character. -/
def SortCharacters (freqs : List (Char × Nat)) : List Char :=
  (freqs.mergeSort SortKeyLe).map Prod.fst

/-- GenerateCodes from the source, embedded as the function giving the n-th
yielded code: the first 15 yields are single digits 0..E, after which block
k of the while loop yields an F-run of length k followed by a digit, so
yield n carries n / 15 leading F symbols and terminal digit n % 15. -/
def GenerateCodes (n : Nat) : List Char :=
  if n < 15 then [hexChar n]
  else List.replicate (n / 15) 'F' ++ [hexChar (n % 15)]

/-- The loop of BuildMapping, with n codes of the generator already consumed:
each character is paired with the next generated code. -/
def buildMappingFrom : Nat → List Char → List (Char × List Char)
  | _, [] => []
  | n, ch :: rest => (ch, GenerateCodes n) :: buildMappingFrom (n + 1) rest

/-- BuildMapping from the source: assign each ranked character the next
code from a fresh generator. -/
def BuildMapping (sorted_chars : List Char) : List (Char × List Char) :=
  buildMappingFrom 0 sorted_chars

/-- CompressText from the source: replace each character by its code and
concatenate; none models the KeyError raised on a missing character. -/
def CompressText : List Char → List (Char × List Char) → Option (List Char)
  | [], _ => some []
  | ch :: rest, mapping =>
    match getAssoc mapping ch, CompressText rest mapping with
    | some code, some s => some (code ++ s)
    | _, _ => none

/-- Python dict assignment inverse_map[code] = ch: overwrite the first
entry with that key in place, else append at the end. -/
def insertAssoc : List (List Char × Char) → List Char → Char → List (List Char × Char)
  | [], code, ch => [(code, ch)]
  | (c, v) :: rest, code, ch =>
    if c = code then (c, ch) :: rest else (c, v) :: insertAssoc rest code ch

/-- One iteration of the inverse-map construction loop of DecompressText. -/
def invStep (inv : List (List Char × Char)) (p : Char × List Char) :
    List (List Char × Char) :=
  insertAssoc inv p.2 p.1

/-- The inverse map code -> char built by DecompressText from the mapping,
later entries overwriting earlier ones on a duplicate code. -/
def buildInverse (mapping : List (Char × List Char)) : List (List Char × Char) :=
  mapping.foldl invStep []

/-- The inner F-counting loop of DecompressText: split a stream into its
maximal leading run of F symbols and the remainder. -/
def splitFRun : List Char → List Char × List Char
  | [] => ([], [])
  | c :: rest =>
    if c = 'F' then
      let p := splitFRun rest
      (c :: p.1, p.2)
    else ([], c :: rest)

/-- One iteration of the scan loop of DecompressText: extract the next key
(slice compressed[start:i] of the source) and the rest of the stream. -/
def splitCode : List Char → List Char × List Char
  | [] => ([], [])
  | c :: rest =>
    if c = 'F' then
      match splitFRun (c :: rest) with
      | (run, []) => (run, [])
      | (run, d :: rest2) => (run ++ [d], rest2)
    else ([c], rest)

/-- The scan loop of DecompressText, fuel-indexed: each iteration extracts
one key, appends inverse_map.get(key, the placeholder) and continues on the
rest of the stream. -/
def decodeLoop (inv : List (List Char × Char)) : Nat → List Char → List Char
  | 0, _ => []
  | _ + 1, [] => []
  | fuel + 1, c :: rest =>
    (getAssoc inv (splitCode (c :: rest)).1).getD '?' ::
      decodeLoop inv fuel (splitCode (c :: rest)).2

/-- DecompressText from the source: build the inverse map, then scan the
compressed stream; fuel equal to the stream length suffices because the
cursor strictly advances every iteration. -/
def DecompressText (compressed : List Char) (mapping : List (Char × List Char)) :
    List Char :=
  decodeLoop (buildInverse mapping) compressed.length compressed

/-! Facts about hexChar and GenerateCodes. -/

lemma hexChar_ne_F : ∀ m, m < 15 → hexChar m ≠ 'F' := by decide

lemma hexChar_inj : ∀ a, a < 15 → ∀ b, b < 15 → hexChar a = hexChar b → a = b := by decide

lemma hexChar_digit :
    ∀ m, m < 15 → ('0' ≤ hexChar m ∧ hexChar m ≤ '9') ∨ ('A' ≤ hexChar m ∧ hexChar m ≤ 'E') := by
  decide

lemma GenerateCodes_eq (n : Nat) :
    GenerateCodes n = List.replicate (n / 15) 'F' ++ [hexChar (n % 15)] := by
  unfold GenerateCodes
  by_cases h : n < 15
  · simp [h, Nat.div_eq_of_lt h, Nat.mod_eq_of_lt h]
  · simp [h]

lemma GenerateCodes_length (n : Nat) : (GenerateCodes n).length = n / 15 + 1 := by
  rw [GenerateCodes_eq]; simp

lemma GenerateCodes_ne_nil (n : Nat) : GenerateCodes n ≠ [] := by
  rw [GenerateCodes_eq]; simp

lemma replicate_concat_append_inj {d d' : Char} (hd : d ≠ 'F') (hd' : d' ≠ 'F') :
    ∀ k k' : Nat, ∀ t : List Char,
      (List.replicate k 'F' ++ [d]) ++ t = List.replicate k' 'F' ++ [d'] →
      k = k' ∧ d = d' ∧ t = [] := by
  intro k
  induction k with
  | zero =>
    intro k' t h
    cases k' with
    | zero => simp_all
    | succ k'' =>
      rw [List.replicate_succ] at h
      simp at h
      exact absurd h.1 hd
  | succ j ih =>
    intro k' t h
    cases k' with
    | zero =>
      rw [List.replicate_succ] at h
      simp at h
    | succ j' =>
      rw [List.replicate_succ, List.replicate_succ] at h
      simp only [List.cons_append, List.cons.injEq] at h
      obtain ⟨hk, hd2, ht⟩ := ih j' t (by simpa using h.2)
      exact ⟨by omega, hd2, ht⟩

lemma GenerateCodes_append_inj (i j : Nat) (t : List Char)
    (h : GenerateCodes i ++ t = GenerateCodes j) : i = j ∧ t = [] := by
  rw [GenerateCodes_eq, GenerateCodes_eq] at h
  obtain ⟨hdiv, hdig, ht⟩ :=
    replicate_concat_append_inj
      (hexChar_ne_F _ (Nat.mod_lt _ (by norm_num)))
      (hexChar_ne_F _ (Nat.mod_lt _ (by norm_num))) _ _ _ h
  have hmod : i % 15 = j % 15 :=
    hexChar_inj _ (Nat.mod_lt _ (by norm_num)) _ (Nat.mod_lt _ (by norm_num)) hdig
  exact ⟨by omega, ht⟩

lemma GenerateCodes_inj {i j : Nat} (h : GenerateCodes i = GenerateCodes j) : i = j :=
  (GenerateCodes_append_inj i j [] (by simpa using h)).1

/-- Claim C6: every code produced by the Code Generator is a run of F
symbols (possibly empty) followed by one terminal digit in 0-9 or A-E; the
generated codes are pairwise distinct; and no generated code is a proper
prefix of another one (extending a generated code by any suffix never
yields a generated code unless the suffix is empty and the codes are the
same). -/
theorem generateCodes_wellFormed (i j : Nat) :
    (∃ k d, GenerateCodes i = List.replicate k 'F' ++ [d] ∧
        (('0' ≤ d ∧ d ≤ '9') ∨ ('A' ≤ d ∧ d ≤ 'E'))) ∧
    (i ≠ j → GenerateCodes i ≠ GenerateCodes j) ∧
    (∀ t, GenerateCodes i ++ t = GenerateCodes j → i = j ∧ t = []) := by
  refine ⟨⟨i / 15, hexChar (i % 15), GenerateCodes_eq i,
      hexChar_digit _ (Nat.mod_lt _ (by norm_num))⟩, ?_, ?_⟩
  · intro hne heq
    exact hne (GenerateCodes_inj heq)
  · intro t h
    exact GenerateCodes_append_inj i j t h

/-- Witness for C6 at a concrete input: the first two generated codes are
distinct, obtained by discharging the hypothesis of the distinctness part. -/
theorem generateCodes_wellFormed_witness : GenerateCodes 0 ≠ GenerateCodes 1 :=
  (generateCodes_wellFormed 0 1).2.1 (by decide)

/-- Claim C8, amended: the length of the i-th generated code (hence of the
code assigned to the character of rank i) is exactly i / 15 + 1, which
grows linearly in the rank i, not logarithmically. -/
theorem codeLength_linear (i : Nat) : (GenerateCodes i).length = i / 15 + 1 :=
  GenerateCodes_length i

lemma two_mul_add_two_le_pow {s : Nat} (hs : 1 ≤ s) : 2 * s + 2 ≤ 15 ^ s := by
  induction s with
  | zero => omega
  | succ n ih =>
    rcases Nat.eq_or_lt_of_le hs with h1 | h1
    · simp [← h1]
    · have hn : 1 ≤ n := by omega
      have h15 : 15 ^ n ≤ 15 ^ (n + 1) :=
        Nat.pow_le_pow_right (by norm_num) (by omega)
      have hpos : 15 ^ n ≥ 15 := by
        calc 15 = 15 ^ 1 := by norm_num
        _ ≤ 15 ^ n := Nat.pow_le_pow_right (by norm_num) hn
      have : 15 ^ (n + 1) = 15 * 15 ^ n := by ring
      omega

/-- Counterexample to claim C8 as stated: the length of the i-th generated
code is not bounded by any function a * log_15 i + b; code length grows
linearly in the rank, not logarithmically. -/
theorem codeLength_not_logarithmic :
    ¬ ∃ a b : Nat, ∀ i : Nat, (GenerateCodes i).length ≤ a * Nat.log 15 i + b := by
  rintro ⟨a, b, h⟩
  rcases Nat.eq_zero_or_pos (a + b) with hs | hs
  · have h0 := h 0
    rw [GenerateCodes_length] at h0
    simp at h0
    omega
  · set s := a + b with hs_def
    set m := 15 ^ s with hm_def
    have hm1 : 1 ≤ m := Nat.one_le_pow _ _ (by norm_num)
    have hlog : Nat.log 15 (15 ^ m) = m := Nat.log_pow (by norm_num) m
    have hlen : (GenerateCodes (15 ^ m)).length = 15 ^ (m - 1) + 1 := by
      rw [GenerateCodes_length]
      congr 1
      have : 15 ^ m = 15 ^ (m - 1) * 15 := by
        rw [← Nat.pow_succ]
        congr 1
        omega
      rw [this]
      exact Nat.mul_div_cancel _ (by norm_num)
    have hmain := h (15 ^ m)
    rw [hlen, hlog] at hmain
    have hsm : s < m := Nat.lt_pow_self (by norm_num) s
    have hb1 : a * m + b ≤ s * m + s := by
      have ha : a ≤ s := by omega
      have hb : b ≤ s := by omega
      have := Nat.mul_le_mul_right m ha
      omega
    have hb2 : s * m + s ≤ m * m := by
      have h1 : s + 1 ≤ m := hsm
      calc s * m + s ≤ s * m + m := by omega
      _ = (s + 1) * m := by ring
      _ ≤ m * m := Nat.mul_le_mul_right m h1
    have hb3 : m * m = 15 ^ (2 * s) := by
      rw [hm_def, ← Nat.pow_add]
      congr 1
      omega
    have hb4 : 15 ^ (2 * s) ≤ 15 ^ (m - 1) := by
      apply Nat.pow_le_pow_right (by norm_num)
      have := two_mul_add_two_le_pow hs
      omega
    omega

/-! Facts about association-list lookup, insertion and the inverse map. -/

lemma getAssoc_of_mem_nodup {κ ν : Type} [DecidableEq κ] :
    ∀ (l : List (κ × ν)) (k : κ) (v : ν),
      (l.map Prod.fst).Nodup → (k, v) ∈ l → getAssoc l k = some v := by
  intro l
  induction l with
  | nil => intro k v _ hm; simp at hm
  | cons p rest ih =>
    intro k v hnd hm
    obtain ⟨pk, pv⟩ := p
    simp only [List.map_cons, List.nodup_cons] at hnd
    rcases List.mem_cons.mp hm with h | h
    · rw [Prod.mk.injEq] at h
      obtain ⟨h1, h2⟩ := h
      subst h1
      subst h2
      simp [getAssoc]
    · have hk : pk ≠ k := by
        intro hkk
        subst hkk
        exact hnd.1 (List.mem_map.mpr ⟨(pk, v), h, rfl⟩)
      simp only [getAssoc, if_neg hk]
      exact ih k v hnd.2 h

lemma getAssoc_insertAssoc (inv : List (List Char × Char)) (code key : List Char) (ch : Char) :
    getAssoc (insertAssoc inv code ch) key =
      if code = key then some ch else getAssoc inv key := by
  induction inv with
  | nil =>
    by_cases hk : code = key <;> simp [insertAssoc, getAssoc, hk]
  | cons p rest ih =>
    obtain ⟨c, v⟩ := p
    by_cases hc : c = code
    · subst hc
      by_cases hk : c = key <;> simp [insertAssoc, getAssoc, hk]
    · simp only [insertAssoc, if_neg hc]
      by_cases hk : c = key
      · subst hk
        have hck : code ≠ c := fun hh => hc hh.symm
        simp [getAssoc, hck]
      · simp [getAssoc, hk, ih]

lemma foldl_invStep_not_mem (m : List (Char × List Char)) :
    ∀ (inv : List (List Char × Char)) (code : List Char),
      code ∉ m.map Prod.snd →
      getAssoc (m.foldl invStep inv) code = getAssoc inv code := by
  induction m with
  | nil => intro inv code _; rfl
  | cons p t ih =>
    intro inv code hnm
    simp only [List.map_cons, List.mem_cons, not_or] at hnm
    rw [List.foldl_cons, ih _ _ hnm.2]
    unfold invStep
    rw [getAssoc_insertAssoc, if_neg (fun h => hnm.1 h.symm)]

lemma getAssoc_foldl_invStep_of_nodup :
    ∀ (m : List (Char × List Char)) (inv : List (List Char × Char)) (ch : Char)
      (code : List Char),
      (m.map Prod.snd).Nodup → (ch, code) ∈ m →
      getAssoc (m.foldl invStep inv) code = some ch := by
  intro m
  induction m with
  | nil => intro inv ch code _ hm; simp at hm
  | cons p t ih =>
    intro inv ch code hnd hm
    simp only [List.map_cons, List.nodup_cons] at hnd
    rw [List.foldl_cons]
    rcases List.mem_cons.mp hm with h | h
    · have hp2 : p.2 = code := by rw [← h]
      have hp1 : p.1 = ch := by rw [← h]
      rw [foldl_invStep_not_mem t _ code (hp2 ▸ hnd.1)]
      unfold invStep
      rw [getAssoc_insertAssoc, if_pos hp2, hp1]
    · exact ih _ ch code hnd.2 h

lemma getAssoc_buildInverse_of_nodup {m : List (Char × List Char)} {ch : Char}
    {code : List Char} (hnd : (m.map Prod.snd).Nodup) (hm : (ch, code) ∈ m) :
    getAssoc (buildInverse m) code = some ch :=
  getAssoc_foldl_invStep_of_nodup m [] ch code hnd hm

/-! Facts about CountFrequencies. -/

lemma bumpCount_keys (l : List (Char × Nat)) (ch : Char) :
    (bumpCount l ch).map Prod.fst =
      if ch ∈ l.map Prod.fst then l.map Prod.fst else l.map Prod.fst ++ [ch] := by
  induction l with
  | nil => simp [bumpCount]
  | cons p rest ih =>
    obtain ⟨c, n⟩ := p
    by_cases hc : c = ch
    · subst hc
      simp [bumpCount]
    · have hch : ch ≠ c := fun hh => hc hh.symm
      simp only [bumpCount, if_neg hc, List.map_cons, ih]
      by_cases hm : ch ∈ rest.map Prod.fst
      · simp [hm, hch]
      · simp [hm, hch]

lemma mem_keys_bumpCount (l : List (Char × Nat)) (ch x : Char) :
    x ∈ (bumpCount l ch).map Prod.fst ↔ x = ch ∨ x ∈ l.map Prod.fst := by
  rw [bumpCount_keys]
  by_cases hm : ch ∈ l.map Prod.fst
  · rw [if_pos hm]
    constructor
    · exact fun h => Or.inr h
    · rintro (rfl | h)
      · exact hm
      · exact h
  · rw [if_neg hm]
    simp [List.mem_append, or_comm]

lemma countFrequencies_aux_keys_nodup :
    ∀ (t : List Char) (init : List (Char × Nat)),
      (init.map Prod.fst).Nodup → ((t.foldl bumpCount init).map Prod.fst).Nodup := by
  intro t
  induction t with
  | nil => intro init h; exact h
  | cons c rest ih =>
    intro init h
    rw [List.foldl_cons]
    apply ih
    rw [bumpCount_keys]
    by_cases hm : c ∈ init.map Prod.fst
    · rw [if_pos hm]; exact h
    · rw [if_neg hm]
      simp [List.nodup_append, h, hm]

lemma countFrequencies_keys_nodup (t : List Char) :
    ((CountFrequencies t).map Prod.fst).Nodup :=
  countFrequencies_aux_keys_nodup t [] (by simp)

lemma mem_keys_countFrequencies_aux :
    ∀ (t : List Char) (init : List (Char × Nat)) (x : Char),
      x ∈ (t.foldl bumpCount init).map Prod.fst ↔ x ∈ init.map Prod.fst ∨ x ∈ t := by
  intro t
  induction t with
  | nil => intro init x; simp
  | cons c rest ih =>
    intro init x
    rw [List.foldl_cons, ih, mem_keys_bumpCount]
    simp only [List.mem_cons]
    tauto

lemma mem_keys_countFrequencies (t : List Char) (x : Char) :
    x ∈ (CountFrequencies t).map Prod.fst ↔ x ∈ t := by
  unfold CountFrequencies
  rw [mem_keys_countFrequencies_aux]
  simp

/-! Facts about SortCharacters. -/

lemma sortCharacters_perm (freqs : List (Char × Nat)) :
    (SortCharacters freqs).Perm (freqs.map Prod.fst) :=
  (List.mergeSort_perm freqs SortKeyLe).map Prod.fst

lemma SortKeyLe_trans :
    ∀ a b c, SortKeyLe a b = true → SortKeyLe b c = true → SortKeyLe a c = true := by
  intro a b c hab hbc
  simp only [SortKeyLe, Bool.or_eq_true, Bool.and_eq_true, decide_eq_true_eq] at *
  rcases hab with h1 | ⟨h1, h2⟩ <;> rcases hbc with h3 | ⟨h3, h4⟩
  · exact Or.inl (lt_trans h3 h1)
  · left; omega
  · left; omega
  · right; exact ⟨by omega, le_trans h2 h4⟩

lemma SortKeyLe_total : ∀ a b, (SortKeyLe a b || SortKeyLe b a) = true := by
  intro a b
  simp only [SortKeyLe, Bool.or_eq_true, Bool.and_eq_true, decide_eq_true_eq]
  rcases lt_trichotomy a.2 b.2 with h | h | h
  · right; left; exact h
  · rcases le_total a.1 b.1 with hc | hc
    · left; right; exact ⟨h, hc⟩
    · right; right; exact ⟨h.symm, hc⟩
  · left; left; exact h

/-- Claim C5: SortCharacters returns a permutation of the keys of the frequency
table ordered by strictly descending count, equal counts broken by ascending
code point; in particular of two equally frequent characters the smaller
code point comes first. -/
theorem sortCharacters_spec (freqs : List (Char × Nat))
    (hnd : (freqs.map Prod.fst).Nodup) :
    (SortCharacters freqs).Perm (freqs.map Prod.fst) ∧
    (SortCharacters freqs).Pairwise (fun a b => ∃ ca cb : Nat,
      getAssoc freqs a = some ca ∧ getAssoc freqs b = some cb ∧
      (cb < ca ∨ (ca = cb ∧ a < b))) := by
  refine ⟨sortCharacters_perm freqs, ?_⟩
  have hsorted := List.sorted_mergeSort SortKeyLe_trans SortKeyLe_total freqs
  have hperm : (freqs.mergeSort SortKeyLe).Perm freqs := List.mergeSort_perm freqs SortKeyLe
  have hnd2 : ((freqs.mergeSort SortKeyLe).map Prod.fst).Nodup :=
    ((hperm.map Prod.fst).nodup_iff).mpr hnd
  have hne : (freqs.mergeSort SortKeyLe).Pairwise (fun p q => p.1 ≠ q.1) :=
    List.pairwise_map.mp hnd2
  unfold SortCharacters
  rw [List.pairwise_map]
  refine (hsorted.and hne).imp_of_mem ?_
  intro p q hp hq hpq
  have hgp : getAssoc freqs p.1 = some p.2 :=
    getAssoc_of_mem_nodup freqs p.1 p.2 hnd (by simpa using hperm.mem_iff.mp hp)
  have hgq : getAssoc freqs q.1 = some q.2 :=
    getAssoc_of_mem_nodup freqs q.1 q.2 hnd (by simpa using hperm.mem_iff.mp hq)
  refine ⟨p.2, q.2, hgp, hgq, ?_⟩
  obtain ⟨hle, hne'⟩ := hpq
  simp only [SortKeyLe, Bool.or_eq_true, Bool.and_eq_true, decide_eq_true_eq] at hle
  rcases hle with h | ⟨h1, h2⟩
  · exact Or.inl h
  · exact Or.inr ⟨h1, lt_of_le_of_ne h2 hne'⟩

/-! Facts about BuildMapping. -/

lemma mem_snd_buildMappingFrom :
    ∀ (l : List Char) (n : Nat) (code : List Char),
      code ∈ (buildMappingFrom n l).map Prod.snd →
      ∃ i, i < l.length ∧ code = GenerateCodes (n + i) := by
  intro l
  induction l with
  | nil => intro n code h; simp [buildMappingFrom] at h
  | cons c t ih =>
    intro n code h
    simp only [buildMappingFrom, List.map_cons, List.mem_cons] at h
    rcases h with h | h
    · exact ⟨0, by simp, by simpa using h⟩
    · obtain ⟨i, hi, hc⟩ := ih (n + 1) code h
      refine ⟨i + 1, by simpa using hi, ?_⟩
      rw [hc]
      congr 1
      omega

lemma buildMappingFrom_codes_nodup :
    ∀ (l : List Char) (n : Nat), ((buildMappingFrom n l).map Prod.snd).Nodup := by
  intro l
  induction l with
  | nil => intro n; simp [buildMappingFrom]
  | cons c t ih =>
    intro n
    simp only [buildMappingFrom, List.map_cons, List.nodup_cons]
    refine ⟨?_, ih (n + 1)⟩
    intro hmem
    obtain ⟨i, _, hc⟩ := mem_snd_buildMappingFrom t (n + 1) _ hmem
    have := GenerateCodes_inj hc
    omega

lemma getAssoc_buildMappingFrom_mem :
    ∀ (l : List Char) (n : Nat) (c : Char), c ∈ l →
      ∃ k, getAssoc (buildMappingFrom n l) c = some (GenerateCodes k) ∧
        (c, GenerateCodes k) ∈ buildMappingFrom n l := by
  intro l
  induction l with
  | nil => intro n c h; simp at h
  | cons a t ih =>
    intro n c h
    by_cases hac : a = c
    · subst hac
      exact ⟨n, by simp [buildMappingFrom, getAssoc], by simp [buildMappingFrom]⟩
    · rcases List.mem_cons.mp h with h1 | h1
      · exact absurd h1.symm hac
      · obtain ⟨k, hg, hmem⟩ := ih (n + 1) c h1
        refine ⟨k, ?_, ?_⟩
        · simp [buildMappingFrom, getAssoc, hac, hg]
        · simp [buildMappingFrom, hmem]

lemma getAssoc_buildMappingFrom_getElem :
    ∀ (l : List Char) (n : Nat), l.Nodup → ∀ i, (h : i < l.length) →
      getAssoc (buildMappingFrom n l) l[i] = some (GenerateCodes (n + i)) := by
  intro l
  induction l with
  | nil => intro n _ i h; simp at h
  | cons a t ih =>
    intro n hnd i h
    rw [List.nodup_cons] at hnd
    cases i with
    | zero => simp [buildMappingFrom, getAssoc]
    | succ j =>
      have hj : j < t.length := by simpa using h
      have hmem : t[j] ∈ t := List.getElem_mem _
      have hne : a ≠ t[j] := fun he => hnd.1 (he ▸ hmem)
      rw [List.getElem_cons_succ]
      simp only [buildMappingFrom, getAssoc, if_neg hne]
      rw [ih (n + 1) hnd.2 j hj]
      congr 2
      omega

/-! Facts about the decode scan. -/

lemma splitFRun_append : ∀ s : List Char, (splitFRun s).1 ++ (splitFRun s).2 = s := by
  intro s
  induction s with
  | nil => rfl
  | cons c rest ih =>
    by_cases hc : c = 'F'
    · simp [splitFRun, hc, ih]
    · simp [splitFRun, hc]

lemma splitFRun_replicate :
    ∀ (k : Nat) (d : Char), d ≠ 'F' → ∀ rest : List Char,
      splitFRun (List.replicate k 'F' ++ d :: rest) = (List.replicate k 'F', d :: rest) := by
  intro k
  induction k with
  | zero => intro d hd rest; simp [splitFRun, hd]
  | succ j ih =>
    intro d hd rest
    rw [List.replicate_succ]
    simp [splitFRun, ih d hd rest, List.replicate_succ]

lemma splitCode_replicate (k : Nat) (d : Char) (hd : d ≠ 'F') (rest : List Char) :
    splitCode ((List.replicate k 'F' ++ [d]) ++ rest) = (List.replicate k 'F' ++ [d], rest) := by
  cases k with
  | zero => simp [splitCode, hd]
  | succ j =>
    have hsp := splitFRun_replicate (j + 1) d hd rest
    have hshape : 'F' :: (List.replicate j 'F' ++ d :: rest) =
        List.replicate (j + 1) 'F' ++ d :: rest := by
      rw [List.replicate_succ]
      simp
    have hstart : (List.replicate (j + 1) 'F' ++ [d]) ++ rest =
        'F' :: (List.replicate j 'F' ++ d :: rest) := by
      rw [List.replicate_succ]
      simp
    rw [hstart]
    simp only [splitCode]
    rw [hshape, hsp]
    simp [List.replicate_succ]

lemma splitCode_generateCode (n : Nat) (rest : List Char) :
    splitCode (GenerateCodes n ++ rest) = (GenerateCodes n, rest) := by
  rw [GenerateCodes_eq]
  exact splitCode_replicate (n / 15) (hexChar (n % 15))
    (hexChar_ne_F _ (Nat.mod_lt _ (by norm_num))) rest

lemma splitCode_snd_lt : ∀ s : List Char, s ≠ [] → (splitCode s).2.length < s.length := by
  intro s hs
  cases s with
  | nil => exact absurd rfl hs
  | cons c rest =>
    by_cases hc : c = 'F'
    · subst hc
      rcases hsp : splitFRun ('F' :: rest) with ⟨run, after⟩
      have happ := splitFRun_append ('F' :: rest)
      rw [hsp] at happ
      cases after with
      | nil =>
        have he : splitCode ('F' :: rest) = (run, []) := by simp [splitCode, hsp]
        rw [he]
        simp
      | cons d rest2 =>
        have he : splitCode ('F' :: rest) = (run ++ [d], rest2) := by simp [splitCode, hsp]
        rw [he]
        have hlen := congrArg List.length happ
        simp at hlen ⊢
        omega
    · have he : splitCode (c :: rest) = ([c], rest) := by simp [splitCode, hc]
      rw [he]
      simp

lemma decodeLoop_fuel_irrel (inv : List (List Char × Char)) :
    ∀ (f₁ : Nat) (s : List Char) (f₂ : Nat), s.length ≤ f₁ → s.length ≤ f₂ →
      decodeLoop inv f₁ s = decodeLoop inv f₂ s := by
  intro f₁
  induction f₁ with
  | zero =>
    intro s f₂ h1 _
    have hs : s = [] := List.eq_nil_of_length_eq_zero (by omega)
    subst hs
    cases f₂ <;> rfl
  | succ n ih =>
    intro s f₂ h1 h2
    cases s with
    | nil => cases f₂ <;> rfl
    | cons c rest =>
      cases f₂ with
      | zero => simp at h2
      | succ m =>
        simp only [decodeLoop]
        congr 1
        have hlt := splitCode_snd_lt (c :: rest) (by simp)
        simp only [List.length_cons] at h1 h2 hlt
        exact ih _ m (by omega) (by omega)

lemma DecompressText_cons (s : List Char) (m : List (Char × List Char)) (hs : s ≠ []) :
    DecompressText s m =
      (getAssoc (buildInverse m) (splitCode s).1).getD '?' ::
        DecompressText (splitCode s).2 m := by
  cases s with
  | nil => exact absurd rfl hs
  | cons c rest =>
    unfold DecompressText
    simp only [List.length_cons, decodeLoop]
    congr 1
    apply decodeLoop_fuel_irrel
    · have hlt := splitCode_snd_lt (c :: rest) (by simp)
      simp only [List.length_cons] at hlt
      omega
    · exact le_refl _

lemma DecompressText_code (n : Nat) (rest : List Char) (m : List (Char × List Char)) :
    DecompressText (GenerateCodes n ++ rest) m =
      (getAssoc (buildInverse m) (GenerateCodes n)).getD '?' :: DecompressText rest m := by
  have hne : GenerateCodes n ++ rest ≠ [] := by
    simp [GenerateCodes_ne_nil n]
  rw [DecompressText_cons _ _ hne, splitCode_generateCode]

/-! Claim theorems about compression, decompression and the round trip. -/

/-- Claim C4: CompressText fails (the KeyError of mapping[ch], modelled by
none) exactly when some character of the text is missing from the mapping;
when every character is present it returns the concatenation of the
codes of the characters in text order. -/
theorem compress_lookup_characterization (text : List Char) (m : List (Char × List Char)) :
    (CompressText text m = none ↔ ∃ c ∈ text, getAssoc m c = none) ∧
    ((∀ c ∈ text, getAssoc m c ≠ none) →
      CompressText text m = some (text.flatMap (fun c => (getAssoc m c).getD []))) := by
  induction text with
  | nil =>
    constructor
    · simp [CompressText]
    · intro _
      simp [CompressText]
  | cons c t ih =>
    constructor
    · constructor
      · intro h
        cases hg : getAssoc m c with
        | none => exact ⟨c, by simp, hg⟩
        | some code =>
          cases hr : CompressText t m with
          | none =>
            obtain ⟨x, hx, hgx⟩ := ih.1.mp hr
            exact ⟨x, by simp [hx], hgx⟩
          | some s => simp [CompressText, hg, hr] at h
      · rintro ⟨x, hx, hgx⟩
        rcases List.mem_cons.mp hx with rfl | hx'
        · simp [CompressText, hgx]
        · have ht : CompressText t m = none := ih.1.mpr ⟨x, hx', hgx⟩
          cases hg : getAssoc m x <;> simp [CompressText, ht, hg]
    · intro hall
      have hc := hall c (by simp)
      cases hg : getAssoc m c with
      | none => exact absurd hg hc
      | some code =>
        have ht := ih.2 (fun x hx => hall x (by simp [hx]))
        simp [CompressText, hg, ht]

/-- Witness for C4 at a concrete input: with every character present, the
compressed stream is the concatenation of the codes. -/
theorem compress_lookup_characterization_witness :
    CompressText ['a'] [('a', ['0'])] =
      some (['a'].flatMap (fun c => (getAssoc [('a', ['0'])] c).getD [])) :=
  (compress_lookup_characterization ['a'] [('a', ['0'])]).2 (by decide)

lemma roundTrip_aux (ranked : List Char) :
    ∀ t : List Char, (∀ c ∈ t, c ∈ ranked) →
      ∃ s, CompressText t (BuildMapping ranked) = some s ∧
        DecompressText s (BuildMapping ranked) = t := by
  intro t
  induction t with
  | nil => exact fun _ => ⟨[], by simp [CompressText], rfl⟩
  | cons c t ih =>
    intro hsub
    obtain ⟨s, hcs, hds⟩ := ih (fun x hx => hsub x (by simp [hx]))
    obtain ⟨k, hg, hmem⟩ :=
      getAssoc_buildMappingFrom_mem ranked 0 c (hsub c (by simp))
    refine ⟨GenerateCodes k ++ s, ?_, ?_⟩
    · unfold BuildMapping at hcs ⊢
      simp [CompressText, hg, hcs]
    · rw [DecompressText_code, hds]
      have hinv : getAssoc (buildInverse (BuildMapping ranked)) (GenerateCodes k) = some c :=
        getAssoc_buildInverse_of_nodup (buildMappingFrom_codes_nodup ranked 0) hmem
      rw [hinv]
      rfl

/-- Claim C1: the round trip property of the main driver of the source: for every
finite text, compressing with the mapping built from the text-derived
frequency table succeeds, and decompressing the result gives back the text. -/
theorem roundTrip_compress_decompress (T : List Char) :
    ∃ s, CompressText T (BuildMapping (SortCharacters (CountFrequencies T))) = some s ∧
      DecompressText s (BuildMapping (SortCharacters (CountFrequencies T))) = T := by
  apply roundTrip_aux
  intro c hc
  exact ((sortCharacters_perm (CountFrequencies T)).mem_iff).mpr
    ((mem_keys_countFrequencies T c).mpr hc)

/-- Claim C7: for a text with exactly 16 distinct characters, the character
of rank 15 exists and BuildMapping assigns it the code F0, the first
two-symbol code. -/
theorem rank15_code_F0 (T : List Char) (h16 : T.dedup.length = 16) :
    ∃ c, (SortCharacters (CountFrequencies T))[15]? = some c ∧
      getAssoc (BuildMapping (SortCharacters (CountFrequencies T))) c = some ['F', '0'] := by
  have hperm := sortCharacters_perm (CountFrequencies T)
  have hnodup_keys := countFrequencies_keys_nodup T
  have hnodup : (SortCharacters (CountFrequencies T)).Nodup := hperm.nodup_iff.mpr hnodup_keys
  have hkeysperm : (((CountFrequencies T).map Prod.fst).Perm T.dedup) := by
    rw [List.perm_ext_iff_of_nodup hnodup_keys (List.nodup_dedup T)]
    intro a
    rw [mem_keys_countFrequencies, List.mem_dedup]
  have hlen : (SortCharacters (CountFrequencies T)).length = 16 := by
    have h1 := hperm.length_eq
    have h2 := hkeysperm.length_eq
    omega
  have h15 : 15 < (SortCharacters (CountFrequencies T)).length := by omega
  refine ⟨(SortCharacters (CountFrequencies T))[15], List.getElem?_eq_getElem h15, ?_⟩
  show getAssoc (buildMappingFrom 0 (SortCharacters (CountFrequencies T))) _ = _
  rw [getAssoc_buildMappingFrom_getElem _ 0 hnodup 15 h15]
  decide

/-- Witness for C7 at a concrete input: a text of 16 distinct characters,
whose 16th-ranked character receives the code F0. -/
theorem rank15_code_F0_witness :
    ∃ c, (SortCharacters (CountFrequencies
        ['0', '1', '2', '3', '4', '5', '6', '7',
         '8', '9', 'A', 'B', 'C', 'D', 'E', 'F']))[15]? = some c ∧
      getAssoc (BuildMapping (SortCharacters (CountFrequencies
        ['0', '1', '2', '3', '4', '5', '6', '7',
         '8', '9', 'A', 'B', 'C', 'D', 'E', 'F']))) c = some ['F', '0'] :=
  rank15_code_F0
    ['0', '1', '2', '3', '4', '5', '6', '7',
     '8', '9', 'A', 'B', 'C', 'D', 'E', 'F'] (by decide)

/-- Counterexample to claim C2 as stated: on a non-injective mapping (two
characters sharing the code 0) DecompressText does not fail at inverse-map
construction time; it builds an inverse map and decodes the stream 0 to a
normal output, the character written last into the inverse map. -/
theorem nonInjective_mapping_decoded_without_failure :
    ¬ (([(('a' : Char), ['0']), ('b', ['0'])].map Prod.snd).Nodup) ∧
    DecompressText ['0'] [('a', ['0']), ('b', ['0'])] = ['b'] := by
  decide

/-- Claim C2, amended: DecompressText never rejects a non-injective mapping;
inverse-map construction resolves a duplicated code by overwriting, so the
mapping entry written last with a given code is the one the decoder uses. -/
theorem buildInverse_last_entry_wins (m : List (Char × List Char)) (ch : Char)
    (code : List Char) :
    getAssoc (buildInverse (m ++ [(ch, code)])) code = some ch := by
  unfold buildInverse
  rw [List.foldl_append]
  simp only [List.foldl_cons, List.foldl_nil]
  unfold invStep
  rw [getAssoc_insertAssoc]
  simp

/-- Claim C3: for an injective mapping, whenever the code extracted at the
current scan position is absent from the inverse mapping (a lone trailing
F run included), DecompressText emits the fallback placeholder at that
position and continues scanning the rest of the stream; the function is
total, so no error is ever raised on an unknown code. -/
theorem decode_unknown_code_fallback (s : List Char) (m : List (Char × List Char))
    (hinj : ((m.map Prod.snd).Nodup)) (hne : s ≠ [])
    (habs : getAssoc (buildInverse m) (splitCode s).1 = none) :
    DecompressText s m = '?' :: DecompressText (splitCode s).2 m := by
  rw [DecompressText_cons s m hne, habs]
  rfl

/-- Witness for C3 at a concrete input: the stream 1 under the injective
mapping a -> 0 decodes to the placeholder followed by the decode of the
empty rest. -/
theorem decode_unknown_code_fallback_witness :
    DecompressText ['1'] [('a', ['0'])] =
      '?' :: DecompressText (splitCode ['1']).2 [('a', ['0'])] :=
  decode_unknown_code_fallback ['1'] [('a', ['0'])] (by decide) (by decide) (by decide)

/-- Claim C10: the fallback placeholder emitted for a code absent from the
inverse mapping is exactly the question mark character, at every scan
position (every position is the head position of the suffix it starts). -/
theorem decode_fallback_question_mark (s : List Char) (m : List (Char × List Char))
    (hne : s ≠ []) (habs : getAssoc (buildInverse m) (splitCode s).1 = none) :
    DecompressText s m = '?' :: DecompressText (splitCode s).2 m := by
  rw [DecompressText_cons s m hne, habs]
  rfl

/-- Witness for C10 at a concrete input: a stream of two F symbols with an
empty mapping decodes to the question mark. -/
theorem decode_fallback_question_mark_witness :
    DecompressText ['F', 'F'] [] = '?' :: DecompressText (splitCode ['F', 'F']).2 [] :=
  decode_fallback_question_mark ['F', 'F'] [] (by decide) (by decide)

/-- Claim C9: on every nonempty stream, well formed or not, and every
mapping, one iteration of the DecompressText scan strictly shortens the
remaining stream and the call returns the placeholder-or-character for the
extracted code followed by the decode of the strictly shorter rest, so the
scan terminates on every finite input with an output string. -/
theorem decompress_terminates_step (s : List Char) (m : List (Char × List Char))
    (hne : s ≠ []) :
    (splitCode s).2.length < s.length ∧
    DecompressText s m =
      (getAssoc (buildInverse m) (splitCode s).1).getD '?' ::
        DecompressText (splitCode s).2 m :=
  ⟨splitCode_snd_lt s hne, DecompressText_cons s m hne⟩

/-- Witness for C9 at a concrete input: one scan step on the stream 0 with
the empty mapping. -/
theorem decompress_terminates_step_witness :
    (splitCode ['0']).2.length < (['0'] : List Char).length ∧
    DecompressText ['0'] [] =
      (getAssoc (buildInverse []) (splitCode ['0']).1).getD '?' ::
        DecompressText (splitCode ['0']).2 [] :=
  decompress_terminates_step ['0'] [] (by decide)

/-- Witness for C5 at a concrete input: the table with equal counts for the
characters a and A, whose keys are distinct. -/
theorem sortCharacters_spec_witness :
    (([(('a' : Char), 1), ('A', 1)].map Prod.fst).Nodup) ∧
    ((SortCharacters [('a', 1), ('A', 1)]).Perm ([('a', 1), ('A', 1)].map Prod.fst) ∧
      (SortCharacters [('a', 1), ('A', 1)]).Pairwise (fun a b => ∃ ca cb : Nat,
        getAssoc [('a', 1), ('A', 1)] a = some ca ∧
        getAssoc [('a', 1), ('A', 1)] b = some cb ∧
        (cb < ca ∨ (ca = cb ∧ a < b)))) :=
  ⟨by decide, sortCharacters_spec [('a', 1), ('A', 1)] (by decide)⟩

end SICS
